import Mathlib

/-!
Verification development for the `src/helpers/ethSigUtil.js` module of the
walletconnect example dapp: EIP-712 typed-data hashing utilities
(`TypedDataUtils`), the legacy typed-data hash (`typedSignatureHashBuffer`),
signature (de)serialization (`concatSig` / `fromRpcSig`), input
normalization (`normalize`) and the signing entry points.

Modelling conventions:
* Byte buffers are `List Nat` with every element `< 256`.
* JavaScript strings are Lean `String`s; hex handling works on `List Char`.
* The external primitives (Keccak-256 via `ethUtil.sha3`, ABI word packing
  via `ethAbi.rawEncode`, `ethAbi.soliditySHA3`, `ethUtil.ecsign`,
  `ethUtil.hashPersonalMessage`) are taken as function parameters: nothing
  in this repository implements them.
* Dynamic JavaScript values are modelled by the inductive `JValue`; the
  `types` property of a typed message is carried in already-parsed form
  (constructor `JValue.schemaV`), matching the shape `TYPED_MESSAGE_SCHEMA`
  documents and all call sites assume.
-/

namespace EthSigUtil

/-! ## Bytes and hex strings

`ethereumjs-util` represents byte strings as node Buffers and converts
through BN (big numbers) and hex strings.  We model a Buffer as `List Nat`
(big-endian order, one entry per byte) and reproduce the exact conversions
the source uses.
-/

/-- Hex digit for a nibble, lower case, as produced by `BN.toString(16)` /
`Buffer.toString("hex")` / `Number.toString(16)`. -/
def hexDigitChar (n : Nat) : Char :=
  match n with
  | 0 => '0' | 1 => '1' | 2 => '2' | 3 => '3' | 4 => '4'
  | 5 => '5' | 6 => '6' | 7 => '7' | 8 => '8' | 9 => '9'
  | 10 => 'a' | 11 => 'b' | 12 => 'c' | 13 => 'd' | 14 => 'e'
  | _ => 'f'

/-- Numeric value of a hex digit character (as `Buffer.from(_, "hex")`
decodes it); non-hex characters are irrelevant to the theorems below. -/
def hexCharVal (c : Char) : Nat :=
  let n := c.toNat
  if 48 ≤ n ∧ n ≤ 57 then n - 48
  else if 97 ≤ n ∧ n ≤ 102 then n - 87
  else if 65 ≤ n ∧ n ≤ 70 then n - 55
  else 0

/-- Big-endian value of a byte buffer (`new BN(buffer)`). -/
def bytesToNat (bs : List Nat) : Nat :=
  bs.foldl (fun a b => 256 * a + b) 0

/-- Minimal big-endian byte representation of a number (`BN.toArray()`,
which yields `[0]` for zero). -/
def natToBytesMin (n : Nat) : List Nat :=
  if h : n < 256 then [n]
  else natToBytesMin (n / 256) ++ [n % 256]
decreasing_by
  exact Nat.div_lt_self (by omega) (by omega)

/-- Fixed-width big-endian byte representation (`k` bytes). -/
def natToBytesBE (k : Nat) (n : Nat) : List Nat :=
  match k with
  | 0 => []
  | k + 1 => natToBytesBE k (n / 256) ++ [n % 256]

/-- Minimal hex digits of a number (`Number.prototype.toString(16)` /
`BN.toString(16)`), `['0']` for zero. -/
def natToHexMin (n : Nat) : List Char :=
  if h : n < 16 then [hexDigitChar n]
  else natToHexMin (n / 16) ++ [hexDigitChar (n % 16)]
decreasing_by
  exact Nat.div_lt_self (by omega) (by omega)

/-- Model of `Buffer.prototype.toString("hex")`: two lower-case hex digits per byte. -/
def bytesToHexChars : List Nat → List Char
  | [] => []
  | b :: bs => hexDigitChar (b / 16) :: hexDigitChar (b % 16) :: bytesToHexChars bs

/-- Model of `Buffer.from(s, "hex")`: consume the characters two at a time; a
trailing lone character is dropped (the callers pad to even length first). -/
def hexPairsToBytes : List Char → List Nat
  | c1 :: c2 :: rest => (16 * hexCharVal c1 + hexCharVal c2) :: hexPairsToBytes rest
  | _ => []

/-- Model of `padWithZeroes` from the source: prepend `"0"` until the string has the
requested length (a no-op on strings already long enough). -/
def padWithZeroes (s : List Char) (len : Nat) : List Char :=
  List.replicate (len - s.length) '0' ++ s

/-- Model of `ethjs-util padToEven`: prefix `"0"` if the hex string has odd length. -/
def padToEven (s : List Char) : List Char :=
  if s.length % 2 = 1 then '0' :: s else s

/-- Model of `isHexPrefixed`: does the string start with `0x`? -/
def isHexPref : List Char → Bool
  | c0 :: c1 :: _ => c0 == '0' && c1 == 'x'
  | _ => false

/-- Model of `stripHexPrefix` from `ethjs-util`. -/
def strip0x (s : List Char) : List Char :=
  if isHexPref s then s.drop 2 else s

/-- Model of `addHexPrefix` from `ethereumjs-util`. -/
def add0x (s : List Char) : List Char :=
  if isHexPref s then s else '0' :: 'x' :: s

/-! ### Arithmetic lemmas about the byte/hex conversions -/

theorem hexCharVal_lt (c : Char) : hexCharVal c < 16 := by
  unfold hexCharVal
  dsimp only
  split
  · omega
  · split
    · omega
    · split
      · omega
      · omega

theorem hexCharVal_hexDigitChar {m : Nat} (h : m < 16) :
    hexCharVal (hexDigitChar m) = m := by
  interval_cases m <;> rfl

theorem foldl_byte_acc (l : List Nat) :
    ∀ a : Nat, l.foldl (fun a b => 256 * a + b) a
      = a * 256 ^ l.length + l.foldl (fun a b => 256 * a + b) 0 := by
  induction l with
  | nil => intro a; simp
  | cons x xs ih =>
      intro a
      show (xs.foldl _ (256 * a + x))
        = a * 256 ^ (xs.length + 1) + xs.foldl _ (256 * 0 + x)
      rw [ih (256 * a + x), ih (256 * 0 + x)]
      ring

theorem bytesToNat_cons (x : Nat) (xs : List Nat) :
    bytesToNat (x :: xs) = x * 256 ^ xs.length + bytesToNat xs := by
  unfold bytesToNat
  show (xs.foldl _ (256 * 0 + x)) = _
  rw [foldl_byte_acc]
  norm_num

theorem bytesToNat_append (l₁ l₂ : List Nat) :
    bytesToNat (l₁ ++ l₂) = bytesToNat l₁ * 256 ^ l₂.length + bytesToNat l₂ := by
  induction l₁ with
  | nil => simp [bytesToNat]
  | cons x xs ih =>
      rw [List.cons_append, bytesToNat_cons, ih, bytesToNat_cons, List.length_append]
      ring

theorem bytesToNat_lt (bs : List Nat) (h : ∀ b ∈ bs, b < 256) :
    bytesToNat bs < 256 ^ bs.length := by
  induction bs with
  | nil => simp [bytesToNat]
  | cons x xs ih =>
      rw [bytesToNat_cons]
      have hx : x < 256 := h x (by simp)
      have hxs : bytesToNat xs < 256 ^ xs.length :=
        ih (fun b hb => h b (by simp [hb]))
      have : x * 256 ^ xs.length + bytesToNat xs
          < (x + 1) * 256 ^ xs.length := by
        rw [Nat.succ_mul]; omega
      calc x * 256 ^ xs.length + bytesToNat xs
          < (x + 1) * 256 ^ xs.length := this
        _ ≤ 256 * 256 ^ xs.length := by
              exact Nat.mul_le_mul_right _ (by omega)
        _ = 256 ^ (xs.length + 1) := by rw [Nat.pow_succ]; ring
        _ = 256 ^ (x :: xs).length := by simp

theorem natToBytesMin_mem_lt (n : Nat) : ∀ b ∈ natToBytesMin n, b < 256 := by
  induction n using Nat.strong_induction_on with
  | _ n ih =>
    rw [natToBytesMin]
    split
    · intro b hb
      simp only [List.mem_singleton] at hb
      omega
    · rename_i h
      intro b hb
      rw [List.mem_append] at hb
      rcases hb with hb | hb
      · exact ih (n / 256) (Nat.div_lt_self (by omega) (by omega)) b hb
      · simp only [List.mem_singleton] at hb
        subst hb
        exact Nat.mod_lt _ (by omega)

theorem bytesToNat_natToBytesMin (n : Nat) :
    bytesToNat (natToBytesMin n) = n := by
  induction n using Nat.strong_induction_on with
  | _ n ih =>
    rw [natToBytesMin]
    split
    · simp [bytesToNat]
    · rename_i h
      rw [bytesToNat_append,
        ih (n / 256) (Nat.div_lt_self (by omega) (by omega))]
      simp [bytesToNat]
      omega

theorem natToBytesMin_length_le {n k : Nat} (hk : 1 ≤ k) (h : n < 256 ^ k) :
    (natToBytesMin n).length ≤ k := by
  induction k generalizing n with
  | zero => omega
  | succ k ihk =>
    rw [natToBytesMin]
    split
    · simp
    · rename_i hn
      have hk1 : 1 ≤ k := by
        by_contra hk0
        have : k = 0 := by omega
        subst this
        simp at h
        omega
      have hdiv : n / 256 < 256 ^ k := by
        rw [Nat.div_lt_iff_lt_mul (by omega)]
        calc n < 256 ^ (k + 1) := h
          _ = 256 ^ k * 256 := by rw [Nat.pow_succ]
      have := ihk hk1 hdiv
      simp only [List.length_append, List.length_singleton]
      omega

theorem natToBytesBE_zero (k : Nat) : natToBytesBE k 0 = List.replicate k 0 := by
  induction k with
  | zero => rfl
  | succ k ih =>
      show natToBytesBE k (0 / 256) ++ [0 % 256] = _
      rw [Nat.zero_div, Nat.zero_mod, ih, ← List.replicate_succ']

/-- The fixed-width representation is the minimal one padded with leading
zero bytes. -/
theorem natToBytesBE_eq_pad {k n : Nat} (hk : 1 ≤ k) (h : n < 256 ^ k) :
    natToBytesBE k n
      = List.replicate (k - (natToBytesMin n).length) 0 ++ natToBytesMin n := by
  induction k generalizing n with
  | zero => omega
  | succ k ihk =>
    by_cases hn : n < 256
    · have h1 : natToBytesMin n = [n] := by rw [natToBytesMin]; simp [hn]
      show natToBytesBE k (n / 256) ++ [n % 256] = _
      rw [Nat.div_eq_of_lt hn, Nat.mod_eq_of_lt hn, natToBytesBE_zero, h1]
      simp
    · have hk1 : 1 ≤ k := by
        by_contra hk0
        have : k = 0 := by omega
        subst this
        simp at h
        omega
      have hdiv : n / 256 < 256 ^ k := by
        rw [Nat.div_lt_iff_lt_mul (by omega)]
        calc n < 256 ^ (k + 1) := h
          _ = 256 ^ k * 256 := by rw [Nat.pow_succ]
      have hmin : natToBytesMin n = natToBytesMin (n / 256) ++ [n % 256] := by
        rw [natToBytesMin]; simp [hn]
      have hlen : 1 ≤ (natToBytesMin (n / 256)).length := by
        rw [natToBytesMin]
        split
        · simp
        · simp only [List.length_append, List.length_singleton]
          omega
      have hlenle : (natToBytesMin (n / 256)).length ≤ k :=
        natToBytesMin_length_le hk1 hdiv
      show natToBytesBE k (n / 256) ++ [n % 256] = _
      rw [ihk hk1 hdiv, hmin]
      simp only [List.length_append, List.length_singleton]
      rw [List.append_assoc]
      congr 2
      omega

theorem natToBytesBE_mem_lt (k n : Nat) : ∀ b ∈ natToBytesBE k n, b < 256 := by
  induction k generalizing n with
  | zero => simp [natToBytesBE]
  | succ k ih =>
      intro b hb
      simp only [natToBytesBE, List.mem_append, List.mem_singleton] at hb
      rcases hb with hb | hb
      · exact ih (n / 256) b hb
      · subst hb
        exact Nat.mod_lt _ (by omega)

theorem natToBytesBE_length (k n : Nat) : (natToBytesBE k n).length = k := by
  induction k generalizing n with
  | zero => rfl
  | succ k ih => simp [natToBytesBE, ih]

/-- Recomposing a fixed-length well-formed byte buffer from its big-endian
value gives the buffer back. -/
theorem natToBytesBE_bytesToNat (r : List Nat)
    (hb : ∀ b ∈ r, b < 256) :
    natToBytesBE r.length (bytesToNat r) = r := by
  induction r using List.reverseRecOn with
  | nil => rfl
  | append_singleton r₀ b ih =>
      have hb0 : b < 256 := hb b (by simp)
      have hval : bytesToNat (r₀ ++ [b]) = bytesToNat r₀ * 256 + b := by
        rw [bytesToNat_append]
        simp [bytesToNat]
      have hlen : (r₀ ++ [b]).length = r₀.length + 1 := by simp
      rw [hlen, hval]
      show natToBytesBE r₀.length ((bytesToNat r₀ * 256 + b) / 256)
          ++ [(bytesToNat r₀ * 256 + b) % 256] = _
      have hdiv : (bytesToNat r₀ * 256 + b) / 256 = bytesToNat r₀ := by
        omega
      have hmod : (bytesToNat r₀ * 256 + b) % 256 = b := by
        omega
      rw [hdiv, hmod, ih (fun x hx => hb x (by simp [hx]))]

/-! ### Hex-character lemmas -/

theorem bytesToHexChars_append (a b : List Nat) :
    bytesToHexChars (a ++ b) = bytesToHexChars a ++ bytesToHexChars b := by
  induction a with
  | nil => rfl
  | cons x xs ih => simp [bytesToHexChars, ih]

theorem bytesToHexChars_length (bs : List Nat) :
    (bytesToHexChars bs).length = 2 * bs.length := by
  induction bs with
  | nil => rfl
  | cons x xs ih => simp [bytesToHexChars, ih]; omega

theorem bytesToHexChars_replicate_zero (m : Nat) :
    bytesToHexChars (List.replicate m 0) = List.replicate (2 * m) '0' := by
  induction m with
  | zero => rfl
  | succ m ih =>
      rw [List.replicate_succ, bytesToHexChars]
      rw [show 2 * (m + 1) = 2 * m + 1 + 1 by omega]
      rw [List.replicate_succ, List.replicate_succ]
      rw [ih]
      rfl

theorem hexPairsToBytes_append :
    ∀ (a b : List Char), a.length % 2 = 0 →
      hexPairsToBytes (a ++ b) = hexPairsToBytes a ++ hexPairsToBytes b
  | [], _, _ => rfl
  | [c], _, h => by simp at h
  | c1 :: c2 :: r, b, h => by
      show (16 * hexCharVal c1 + hexCharVal c2) :: hexPairsToBytes (r ++ b)
        = (16 * hexCharVal c1 + hexCharVal c2) :: (hexPairsToBytes r ++ hexPairsToBytes b)
      rw [hexPairsToBytes_append r b (by simp at h; omega)]

theorem hexPairsToBytes_bytesToHexChars (bs : List Nat)
    (h : ∀ b ∈ bs, b < 256) :
    hexPairsToBytes (bytesToHexChars bs) = bs := by
  induction bs with
  | nil => rfl
  | cons x xs ih =>
      have hx : x < 256 := h x (by simp)
      show (16 * hexCharVal (hexDigitChar (x / 16))
            + hexCharVal (hexDigitChar (x % 16))) :: hexPairsToBytes (bytesToHexChars xs)
        = x :: xs
      rw [hexCharVal_hexDigitChar (by omega : x / 16 < 16),
        hexCharVal_hexDigitChar (by omega : x % 16 < 16),
        ih (fun b hb => h b (by simp [hb]))]
      congr 1
      omega

theorem mem_bytesToHexChars {bs : List Nat} (h : ∀ b ∈ bs, b < 256)
    {c : Char} (hc : c ∈ bytesToHexChars bs) :
    ∃ m, m < 16 ∧ c = hexDigitChar m := by
  induction bs with
  | nil => simp [bytesToHexChars] at hc
  | cons x xs ih =>
      have hx : x < 256 := h x (by simp)
      simp only [bytesToHexChars, List.mem_cons] at hc
      rcases hc with hc | hc | hc
      · exact ⟨x / 16, by omega, hc⟩
      · exact ⟨x % 16, by omega, hc⟩
      · exact ih (fun b hb => h b (by simp [hb])) hc

theorem hexDigitChar_ne_x {m : Nat} (hm : m < 16) : hexDigitChar m ≠ 'x' := by
  interval_cases m <;> decide

/-- The zero-padded hex rendering of a number below `256 ^ 32` is exactly
the hex rendering of its 32-byte big-endian representation. -/
theorem padWithZeroes_hex_eq {n : Nat} (h : n < 256 ^ 32) :
    padWithZeroes (bytesToHexChars (natToBytesMin n)) 64
      = bytesToHexChars (natToBytesBE 32 n) := by
  have hlen : (natToBytesMin n).length ≤ 32 :=
    natToBytesMin_length_le (by omega) h
  rw [natToBytesBE_eq_pad (by omega) h, bytesToHexChars_append,
    bytesToHexChars_replicate_zero]
  unfold padWithZeroes
  rw [bytesToHexChars_length]
  congr 1
  congr 1
  omega

theorem padWithZeroes_length {s : List Char} (h : s.length ≤ 64) :
    (padWithZeroes s 64).length = 64 := by
  unfold padWithZeroes
  simp
  omega

theorem mem_padWithZeroes {s : List Char} {c : Char} {k : Nat}
    (hc : c ∈ padWithZeroes s k) : c = '0' ∨ c ∈ s := by
  unfold padWithZeroes at hc
  rw [List.mem_append] at hc
  rcases hc with hc | hc
  · exact Or.inl (List.eq_of_mem_replicate hc)
  · exact Or.inr hc

theorem isHexPref_false_of_digits (l rest : List Char) (hlen : 2 ≤ l.length)
    (h : ∀ c ∈ l, ∃ m, m < 16 ∧ c = hexDigitChar m) :
    isHexPref (l ++ rest) = false := by
  match l, hlen with
  | c0 :: c1 :: l', _ =>
    obtain ⟨m, hm, hc⟩ := h c1 (by simp)
    show (c0 == '0' && c1 == 'x') = false
    have : c1 ≠ 'x' := by rw [hc]; exact hexDigitChar_ne_x hm
    simp [this]

theorem strip0x_add0x (s : List Char) (h : isHexPref s = false) :
    strip0x (add0x s) = s := by
  unfold add0x
  rw [h]
  simp only [Bool.false_eq_true, if_false]
  unfold strip0x
  have : isHexPref ('0' :: 'x' :: s) = true := by
    show (('0' : Char) == '0' && ('x' : Char) == 'x') = true
    decide
  rw [this]
  simp

/-! ## SignatureCodec: `concatSig` and `fromRpcSig` -/

/-- Model of `ethUtil.fromSigned`: read a buffer as a 256-bit two's-complement
signed integer (`new BN(buf).fromTwos(256)`). -/
def fromSigned (bs : List Nat) : Int :=
  if Nat.testBit (bytesToNat bs) 255 then (bytesToNat bs : Int) - 2 ^ 256
  else (bytesToNat bs : Int)

/-- Model of `ethUtil.toUnsigned`: `Buffer.from(num.toTwos(256).toArray())` — the
minimal big-endian bytes of the 256-bit two's-complement value. -/
def toUnsignedBytes (i : Int) : List Nat :=
  natToBytesMin ((if i < 0 then i + 2 ^ 256 else i).toNat)

/-- Model of `concatSig(v, r, s)` from the source: hex of `r` and `s` zero-padded to
64 characters each, followed by the minimal hex of `v`, `0x`-prefixed.
(`ethUtil.bufferToInt(v)` is the identity on the numeric `v` the callers
pass, and `.toString("hex")` on a string is the string itself.) -/
def concatSig (v : Nat) (r s : List Nat) : List Char :=
  let rStr := padWithZeroes (bytesToHexChars (toUnsignedBytes (fromSigned r))) 64
  let sStr := padWithZeroes (bytesToHexChars (toUnsignedBytes (fromSigned s))) 64
  let vStr := strip0x ('0' :: 'x' :: natToHexMin v)
  add0x (rStr ++ sStr ++ vStr)

/-- The `{v, r, s}` record returned by `ethUtil.fromRpcSig`. -/
structure SigParams where
  v : Nat
  r : List Nat
  s : List Nat
deriving DecidableEq

/-- Model of `ethUtil.toBuffer` on a string: hex-decode when `0x`-prefixed,
UTF-8 bytes otherwise (modelled as code points; the signatures parsed
here are ASCII hex). -/
def stringToBuffer (s : List Char) : List Nat :=
  if isHexPref s then hexPairsToBytes (padToEven (strip0x s)) else s.map Char.toNat

/-- Model of `fromRpcSig` from the source composed with `ethUtil.fromRpcSig`:
convert to a buffer, require 65 bytes, split into `r` (bytes 0–31),
`s` (bytes 32–63) and `v` (byte 64, bumped by 27 when below 27). -/
def fromRpcSig (sig : List Char) : Except String SigParams :=
  let buf := stringToBuffer sig
  if buf.length = 65 then
    let v0 := buf.getD 64 0
    .ok ⟨if v0 < 27 then v0 + 27 else v0, buf.take 32, (buf.drop 32).take 32⟩
  else .error "Invalid signature length"

theorem toUnsignedBytes_fromSigned (bs : List Nat) (h : bytesToNat bs < 2 ^ 256) :
    toUnsignedBytes (fromSigned bs) = natToBytesMin (bytesToNat bs) := by
  unfold toUnsignedBytes fromSigned
  congr 1
  split <;> split <;> omega

theorem pow256_32 : (256 : Nat) ^ 32 = 2 ^ 256 := by norm_num

/-- A zero-padded 64-character hex block decodes back to the 32-byte
buffer it came from. -/
theorem hexBlock_roundTrip (r : List Nat) (hr : r.length = 32)
    (hrb : ∀ b ∈ r, b < 256) :
    hexPairsToBytes
        (padWithZeroes (bytesToHexChars (toUnsignedBytes (fromSigned r))) 64)
      = r := by
  have hn : bytesToNat r < 256 ^ 32 := by
    have := bytesToNat_lt r hrb
    rwa [hr] at this
  have h2 : bytesToNat r < 2 ^ 256 := by rwa [pow256_32] at hn
  rw [toUnsignedBytes_fromSigned r h2, padWithZeroes_hex_eq hn,
    hexPairsToBytes_bytesToHexChars _ (natToBytesBE_mem_lt 32 _)]
  calc natToBytesBE 32 (bytesToNat r)
      = natToBytesBE r.length (bytesToNat r) := by rw [hr]
    _ = r := natToBytesBE_bytesToNat r hrb

theorem hexBlock_length (r : List Nat) (hr : r.length = 32)
    (hrb : ∀ b ∈ r, b < 256) :
    (padWithZeroes (bytesToHexChars (toUnsignedBytes (fromSigned r))) 64).length
      = 64 := by
  have hn : bytesToNat r < 256 ^ 32 := by
    have := bytesToNat_lt r hrb
    rwa [hr] at this
  have h2 : bytesToNat r < 2 ^ 256 := by rwa [pow256_32] at hn
  apply padWithZeroes_length
  rw [toUnsignedBytes_fromSigned r h2, bytesToHexChars_length]
  have := natToBytesMin_length_le (by omega : 1 ≤ 32) hn
  omega

theorem hexBlock_digits (r : List Nat) (hr : r.length = 32)
    (hrb : ∀ b ∈ r, b < 256) :
    ∀ c ∈ padWithZeroes (bytesToHexChars (toUnsignedBytes (fromSigned r))) 64,
      ∃ m, m < 16 ∧ c = hexDigitChar m := by
  have hn : bytesToNat r < 256 ^ 32 := by
    have := bytesToNat_lt r hrb
    rwa [hr] at this
  have h2 : bytesToNat r < 2 ^ 256 := by rwa [pow256_32] at hn
  intro c hc
  rcases mem_padWithZeroes hc with hc0 | hcs
  · exact ⟨0, by omega, hc0⟩
  · rw [toUnsignedBytes_fromSigned r h2] at hcs
    exact mem_bytesToHexChars (natToBytesMin_mem_lt _) hcs

theorem padToEven_even {l : List Char} (h : l.length % 2 = 0) :
    padToEven l = l := by
  unfold padToEven
  rw [h]
  simp

theorem stringToBuffer_add0x {X : List Char} (h : isHexPref X = false) :
    stringToBuffer (add0x X) = hexPairsToBytes (padToEven X) := by
  have h2 : add0x X = '0' :: 'x' :: X := by
    unfold add0x
    rw [h]
    simp
  have h3 : isHexPref ('0' :: 'x' :: X) = true := rfl
  unfold stringToBuffer
  rw [h2, h3]
  simp only [if_true]
  unfold strip0x
  rw [h3]
  simp

theorem fromRpcSig_concatSig_core {v : Nat} (r s : List Nat)
    (hv27 : 27 ≤ v) (hvlen : (natToHexMin v).length % 2 = 0)
    (hvval : hexPairsToBytes (natToHexMin v) = [v])
    (hr : r.length = 32) (hs : s.length = 32)
    (hrb : ∀ b ∈ r, b < 256) (hsb : ∀ b ∈ s, b < 256) :
    fromRpcSig (concatSig v r s) = .ok ⟨v, r, s⟩ := by
  have hRlen : (padWithZeroes (bytesToHexChars (toUnsignedBytes (fromSigned r))) 64).length = 64 :=
    hexBlock_length r hr hrb
  have hSlen : (padWithZeroes (bytesToHexChars (toUnsignedBytes (fromSigned s))) 64).length = 64 :=
    hexBlock_length s hs hsb
  have hcs : concatSig v r s
      = add0x ((padWithZeroes (bytesToHexChars (toUnsignedBytes (fromSigned r))) 64
          ++ padWithZeroes (bytesToHexChars (toUnsignedBytes (fromSigned s))) 64)
          ++ natToHexMin v) := rfl
  have hXpref : isHexPref
      ((padWithZeroes (bytesToHexChars (toUnsignedBytes (fromSigned r))) 64
        ++ padWithZeroes (bytesToHexChars (toUnsignedBytes (fromSigned s))) 64)
        ++ natToHexMin v) = false := by
    rw [List.append_assoc]
    exact isHexPref_false_of_digits _ _ (by rw [hRlen]; omega) (hexBlock_digits r hr hrb)
  have hbuf : stringToBuffer (concatSig v r s) = r ++ s ++ [v] := by
    rw [hcs, stringToBuffer_add0x hXpref,
      padToEven_even (by simp [hRlen, hSlen]; omega),
      hexPairsToBytes_append _ _ (by simp [hRlen, hSlen]),
      hexPairsToBytes_append _ _ (by rw [hRlen]),
      hexBlock_roundTrip r hr hrb, hexBlock_roundTrip s hs hsb, hvval]
  have hlen65 : (r ++ s ++ [v]).length = 65 := by simp [hr, hs]
  simp only [fromRpcSig]
  rw [hbuf, if_pos hlen65]
  have htake : (r ++ s ++ [v]).take 32 = r := by
    rw [List.append_assoc, ← hr]
    exact List.take_left _ _
  have hdrop : ((r ++ s ++ [v]).drop 32).take 32 = s := by
    have h1 : (r ++ s ++ [v]).drop 32 = s ++ [v] := by
      rw [List.append_assoc, ← hr]
      exact List.drop_left _ _
    rw [h1, ← hs]
    exact List.take_left _ _
  have hgetD : (r ++ s ++ [v]).getD 64 0 = v := by
    rw [List.append_assoc, List.getD_append_right _ _ _ _ (by omega : r.length ≤ 64),
      hr, List.getD_append_right _ _ _ _ (by omega : s.length ≤ 64 - 32), hs]
    rfl
  rw [htake, hdrop, hgetD, if_neg (by omega)]

theorem natToHexMin_27 : natToHexMin 27 = ['1', 'b'] := by
  rw [natToHexMin]
  norm_num
  rw [natToHexMin]
  decide

theorem natToHexMin_28 : natToHexMin 28 = ['1', 'c'] := by
  rw [natToHexMin]
  norm_num
  rw [natToHexMin]
  decide

/-- C4: for every `v ∈ {27, 28}` and all 32-byte buffers `r` and `s`,
`fromRpcSig (concatSig v r s)` returns exactly the original triple
`{v, r, s}` — serialization and parsing are mutually inverse on valid
signatures. -/
theorem concatSig_fromRpcSig_roundTrip (v : Nat) (r s : List Nat)
    (hv : v = 27 ∨ v = 28) (hr : r.length = 32) (hs : s.length = 32)
    (hrb : ∀ b ∈ r, b < 256) (hsb : ∀ b ∈ s, b < 256) :
    fromRpcSig (concatSig v r s) = .ok ⟨v, r, s⟩ := by
  rcases hv with rfl | rfl
  · exact fromRpcSig_concatSig_core r s (by omega)
      (by rw [natToHexMin_27]; rfl) (by rw [natToHexMin_27]; rfl) hr hs hrb hsb
  · exact fromRpcSig_concatSig_core r s (by omega)
      (by rw [natToHexMin_28]; rfl) (by rw [natToHexMin_28]; rfl) hr hs hrb hsb

/-- Witness for C4 at `v = 27`, `r = 0…0`, `s = 05 05 … 05`. -/
theorem concatSig_fromRpcSig_roundTrip_witness :
    fromRpcSig (concatSig 27 (List.replicate 32 0) (List.replicate 32 5))
      = .ok ⟨27, List.replicate 32 0, List.replicate 32 5⟩ :=
  concatSig_fromRpcSig_roundTrip 27 (List.replicate 32 0) (List.replicate 32 5)
    (Or.inl rfl) (by simp) (by simp)
    (fun b hb => by rw [List.eq_of_mem_replicate hb]; omega)
    (fun b hb => by rw [List.eq_of_mem_replicate hb]; omega)

/-! ## Data model: schemas and dynamic values -/

/-- A field definition `{name, type}`; the order of fields inside a struct
is significant. -/
structure FieldDef where
  name : String
  type : String
deriving DecidableEq

/-- A type-definition object: struct name ↦ ordered field list (the shape
prescribed by `TYPED_MESSAGE_SCHEMA.properties.types`). -/
abbrev Schema := List (String × List FieldDef)

/-- JavaScript property lookup `types[name]` on a type-definition object
(`undefined` for a missing key is rendered as `none`). -/
def lookupSchema : Schema → String → Option (List FieldDef)
  | [], _ => none
  | (k, v) :: rest, t => if k = t then some v else lookupSchema rest t

/-- Dynamic JavaScript values as this module consumes them.  The `types`
property of a typed message is carried in parsed form (`schemaV`), the
shape every call site assumes. -/
inductive JValue where
  | undefined
  | null
  | bool (b : Bool)
  | num (n : Nat)
  | str (s : String)
  | buf (bytes : List Nat)
  | obj (props : List (String × JValue))
  | schemaV (s : Schema)

/-- JavaScript truthiness (`if (x)`); objects, buffers and schemas are
always truthy, `0`, `""`, `false`, `null` and `undefined` are falsy. -/
def truthy : JValue → Bool
  | .undefined => false
  | .null => false
  | .bool b => b
  | .num n => n != 0
  | .str s => s != ""
  | .buf _ => true
  | .obj _ => true
  | .schemaV _ => true

def isUndef : JValue → Bool
  | .undefined => true
  | _ => false

/-- Property read on a plain object: `undefined` when the key is absent. -/
def jsLookup : List (String × JValue) → String → JValue
  | [], _ => .undefined
  | (k, v) :: rest, key => if k = key then v else jsLookup rest key

/-- JavaScript property read `v[k]`: throws a `TypeError` on `null` and
`undefined`, yields `undefined` on primitives (for the keys used here). -/
def getProp : JValue → String → Except String JValue
  | .undefined, _ => .error "TypeError: Cannot read properties of undefined"
  | .null, _ => .error "TypeError: Cannot read properties of null"
  | .obj props, k => .ok (jsLookup props k)
  | _, _ => .ok .undefined

/-- The value `getProp` yields when it does not throw. -/
def getPropPure : JValue → String → JValue
  | .obj props, k => jsLookup props k
  | _, _ => .undefined

theorem getPropPure_of_getProp {d : JValue} {k : String} {v : JValue}
    (h : getProp d k = .ok v) : getPropPure d k = v := by
  cases d <;> simp_all [getProp, getPropPure]

/-- JavaScript string coercion as used by the template literals and
string concatenations in the source. -/
def jsToStr : JValue → String
  | .undefined => "undefined"
  | .null => "null"
  | .bool b => if b then "true" else "false"
  | .num n => toString n
  | .str s => s
  | .buf bs => String.mk (bs.map Char.ofNat)
  | .obj _ => "[object Object]"
  | .schemaV _ => "[object Object]"

/-- UTF-8 bytes of a string, modelled as code points (the strings hashed
here are ASCII, where the two coincide). -/
def strBytes (s : String) : List Nat := s.data.map Char.toNat

/-- Model of `ethUtil.toBuffer`: buffers pass through, `0x`-prefixed strings are
hex-decoded, other strings are UTF-8 encoded, numbers go through
`intToBuffer`, `null`/`undefined` give the empty buffer.  The remaining
shapes throw in `ethereumjs-util` and are never reached by this module;
they default to the empty buffer. -/
def toBufferJS : JValue → List Nat
  | .buf bs => bs
  | .str s =>
      if isHexPref s.data then hexPairsToBytes (padToEven (strip0x s.data))
      else strBytes s
  | .num n => hexPairsToBytes (padToEven (natToHexMin n))
  | .null => []
  | .undefined => []
  | _ => []

/-- Model of `ethUtil.sha3(value)`: Keccak-256 of `toBuffer(value)`; the Keccak
primitive itself is external and passed in as `kec`. -/
def sha3 (kec : List Nat → List Nat) (v : JValue) : List Nat :=
  kec (toBufferJS v)

/-- Model of `ethUtil.bufferToHex`. -/
def bufferToHex (bs : List Nat) : String :=
  String.mk ('0' :: 'x' :: bytesToHexChars bs)

/-! ## TypeGraph: `findTypeDependencies` and `encodeType` -/

/-- The field loop of `findTypeDependencies`, threading the `results`
array.  The source mutates a shared array; the recursive call returns
that very array, so the inner `!results.includes(dep)` guard never fires
and the loop reduces to threading `results` through the recursion. -/
def findDepsFields (step : String → List String → List String) :
    List FieldDef → List String → List String
  | [], results => results
  | f :: fs, results => findDepsFields step fs (step f.type results)

/-- Model of `findTypeDependencies(primaryType, types, results)`.  `fuel` bounds
the recursion depth; the source terminates through the visited check in
`results`, and `types.length + 1` levels always suffice because each
non-bailing call appends a fresh schema key to `results`. -/
def findTypeDeps (types : Schema) : Nat → String → List String → List String
  | 0, _, results => results
  | fuel + 1, primaryType, results =>
    if primaryType ∈ results then results
    else
      match lookupSchema types primaryType with
      | none => results
      | some fields =>
          findDepsFields (findTypeDeps types fuel) fields (results ++ [primaryType])

/-- Model of `findTypeDependencies` at its call sites (fresh `results`). -/
def findTypeDependencies (primaryType : String) (types : Schema) : List String :=
  findTypeDeps types (types.length + 1) primaryType []

/-- Model of `Array.prototype.sort()` with the default comparator: lexicographic
ascending.  On the duplicate-free lists produced here every sorting
algorithm agrees, so insertion sort models it faithfully. -/
def insertSorted (x : String) : List String → List String
  | [] => [x]
  | y :: ys => if x ≤ y then x :: y :: ys else y :: insertSorted x ys

def sortStrings (l : List String) : List String := l.foldr insertSorted []

/-- The `TypeName(type1 name1,...)` fragment emitted for one struct. -/
def typeFragment (t : String) (fields : List FieldDef) : String :=
  t ++ "(" ++ String.intercalate "," (fields.map (fun f => f.type ++ " " ++ f.name)) ++ ")"

/-- Model of `encodeType(primaryType, types)`: the dependencies without the root,
sorted, prefixed by the root; each is rendered as its fragment, failing
on a type without a definition. -/
def encodeType (primaryType : String) (types : Schema) : Except String String :=
  let deps0 := (findTypeDependencies primaryType types).filter
    (fun dep => dep ≠ primaryType)
  let deps := primaryType :: sortStrings deps0
  deps.foldlM (fun result t =>
    match lookupSchema types t with
    | none => .error ("No type definition specified: " ++ t)
    | some fields => .ok (result ++ typeFragment t fields)) ""

/-- Model of `hashType`: Keccak-256 of the encoded type. -/
def hashType (kec : List Nat → List Nat) (primaryType : String) (types : Schema) :
    Except String (List Nat) :=
  (encodeType primaryType types).map (fun s => sha3 kec (.str s))

/-! ## StructEncoder: `encodeData` and `hashStruct` -/

/-- Model of `field.type.lastIndexOf("]")` as a JavaScript index (`-1` if absent):
the rightmost occurrence of `']'`. -/
def lastIndexOfRB (s : List Char) : Int :=
  match s with
  | [] => -1
  | c :: rest =>
    let sub := lastIndexOfRB rest
    if sub ≥ 0 then sub + 1
    else if c == ']' then 0
    else -1

/-- The array check in `encodeData`:
`field.type.lastIndexOf("]") === field.type.length - 1` (note that the
empty string also passes, as `-1 === -1`). -/
def isArrayType (s : String) : Bool :=
  lastIndexOfRB s.data = (s.data.length : Int) - 1

/-- The field loop of `encodeData`, building the parallel
`encodedTypes` / `encodedValues` arrays (zipped into pairs here, as the
source builds them in lockstep).  `recur` is the recursive `encodeData`
call used for nested struct values (already carrying its fuel); a field
whose value is `undefined` is skipped entirely. -/
def encodeFieldsWith (kec : List Nat → List Nat)
    (rawEnc : List String → List JValue → List Nat) (types : Schema)
    (recur : String → JValue → Except String (List (String × JValue))) :
    List FieldDef → JValue → Except String (List (String × JValue))
  | [], _ => .ok []
  | f :: fs, data =>
    match getProp data f.name with
    | .error e => .error e
    | .ok value =>
      if isUndef value then
        encodeFieldsWith kec rawEnc types recur fs data
      else if f.type = "string" ∨ f.type = "bytes" then
        match encodeFieldsWith kec rawEnc types recur fs data with
        | .error e => .error e
        | .ok rest => .ok (("bytes32", JValue.buf (sha3 kec value)) :: rest)
      else if (lookupSchema types f.type).isSome then
        match recur f.type value with
        | .error e => .error e
        | .ok sub =>
          match encodeFieldsWith kec rawEnc types recur fs data with
          | .error e => .error e
          | .ok rest => .ok (("bytes32", JValue.buf (sha3 kec
              (.buf (rawEnc (sub.map Prod.fst) (sub.map Prod.snd))))) :: rest)
      else if isArrayType f.type then
        .error "Arrays currently unimplemented in encodeData"
      else
        match encodeFieldsWith kec rawEnc types recur fs data with
        | .error e => .error e
        | .ok rest => .ok ((f.type, value) :: rest)

/-- Model of `encodeData(primaryType, data, types)` as the list of (type, value)
slot pairs handed to `ethAbi.rawEncode`: the `hashType` slot first, then
one slot per present field.  `fuel` bounds the recursion depth into
nested struct values (the `none` branch mirrors the `TypeError` a
`for…of` over `undefined` would raise, though `hashType` always fails
first in that situation). -/
def encodeDataPairs (kec : List Nat → List Nat)
    (rawEnc : List String → List JValue → List Nat) (types : Schema) :
    Nat → String → JValue → Except String (List (String × JValue))
  | 0, _, _ => .error "RangeError: Maximum call stack size exceeded"
  | fuel + 1, primaryType, data =>
    match hashType kec primaryType types with
    | .error e => .error e
    | .ok ht =>
      match lookupSchema types primaryType with
      | none => .error "TypeError: types[primaryType] is not iterable"
      | some fields =>
        match encodeFieldsWith kec rawEnc types
            (encodeDataPairs kec rawEnc types fuel) fields data with
        | .error e => .error e
        | .ok rest => .ok (("bytes32", JValue.buf ht) :: rest)

mutual

/-- Nesting depth of a dynamic value (1 for leaves). -/
def jfuel : JValue → Nat
  | .obj props => 1 + jfuelList props
  | _ => 1

def jfuelList : List (String × JValue) → Nat
  | [] => 0
  | kv :: rest => max (jfuel kv.2) (jfuelList rest)

end

/-- Model of `encodeData`: the slot pairs packed through `ethAbi.rawEncode`.  The
starting fuel `jfuel data` dominates the nesting depth of struct values
inside `data`, so the recursion never exhausts it. -/
def encodeData (kec : List Nat → List Nat)
    (rawEnc : List String → List JValue → List Nat)
    (primaryType : String) (data : JValue) (types : Schema) :
    Except String (List Nat) :=
  (encodeDataPairs kec rawEnc types (jfuel data) primaryType data).map
    (fun pairs => rawEnc (pairs.map Prod.fst) (pairs.map Prod.snd))

/-- Model of `hashStruct`: Keccak-256 of `encodeData`. -/
def hashStruct (kec : List Nat → List Nat)
    (rawEnc : List String → List JValue → List Nat)
    (primaryType : String) (data : JValue) (types : Schema) :
    Except String (List Nat) :=
  (encodeData kec rawEnc primaryType data types).map kec

/-! ## Eip712Signer: `sanitizeData` and `sign` -/

/-- The recognized top-level keys, in the order
`TYPED_MESSAGE_SCHEMA.properties` declares them. -/
def typedMessageSchemaKeys : List String :=
  ["types", "primaryType", "domain", "message"]

/-- Model of `sanitizeData(data)`: walk the schema keys in order and copy a key
only when its value is truthy
(`data[key] && (sanitizedData[key] = data[key])`). -/
def sanitizeData (data : List (String × JValue)) : List (String × JValue) :=
  typedMessageSchemaKeys.filterMap (fun key =>
    if truthy (jsLookup data key) then some (key, jsLookup data key) else none)

/-- The `types` value of a sanitized typed message, in parsed form
(`schemaV`; any other shape makes every type lookup miss, as it does in
the source). -/
def typesOf (sanitized : List (String × JValue)) : Schema :=
  match jsLookup sanitized "types" with
  | .schemaV s => s
  | _ => []

/-- Model of `TypedDataUtils.sign(typedData)`: sanitize, then hash
`Buffer.from("1901","hex") ‖ hashStruct("EIP712Domain", domain, types) ‖
hashStruct(primaryType, message, types)`.  A non-string sanitized
`primaryType` is coerced the way a JavaScript property key is. -/
def sign (kec : List Nat → List Nat)
    (rawEnc : List String → List JValue → List Nat)
    (typedData : List (String × JValue)) : Except String (List Nat) :=
  let sanitized := sanitizeData typedData
  let types := typesOf sanitized
  match hashStruct kec rawEnc "EIP712Domain" (jsLookup sanitized "domain") types with
  | .error e => .error e
  | .ok dh =>
    match hashStruct kec rawEnc (jsToStr (jsLookup sanitized "primaryType"))
        (jsLookup sanitized "message") types with
    | .error e => .error e
    | .ok mh => .ok (kec (hexPairsToBytes ['1', '9', '0', '1'] ++ dh ++ mh))

/-! ## `normalize` -/

/-- JavaScript `typeof`. -/
def jsTypeofStr : JValue → String
  | .undefined => "undefined"
  | .null => "object"
  | .bool _ => "boolean"
  | .num _ => "number"
  | .str _ => "string"
  | .buf _ => "object"
  | .obj _ => "object"
  | .schemaV _ => "object"

/-- Model of `normalize(input)`: `if (!input) return;` yields `undefined` for any
falsy input; numbers are replaced by the hex rendering of their buffer;
anything that is then not a string throws; strings are lower-cased and
`0x`-prefixed. -/
def normalize (input : JValue) : Except String JValue :=
  if !truthy input then .ok .undefined
  else
    let input1 := match input with
      | .num n => JValue.str (bufferToHex (toBufferJS (.num n)))
      | v => v
    match input1 with
    | .str s => .ok (.str (String.mk (add0x (s.data.map Char.toLower))))
    | v => .error ("eth-sig-util.normalize() requires hex string or integer input. received "
        ++ jsTypeofStr v ++ ": " ++ jsToStr v)

/-! ## Legacy typed-data hash -/

/-- An entry of the legacy typed-data list: `{name, type, value}` (the
`name` may be absent or falsy, which the function rejects). -/
structure LegacyEntry where
  name : JValue
  type : String
  value : JValue

/-- The `schema` pass of `typedSignatureHashBuffer`: map each entry to
its `"type name"` string, throwing the shared error on a falsy `name`. -/
def legacySchema : List LegacyEntry → Except String (List String)
  | [] => .ok []
  | e :: rest =>
      if truthy e.name then
        match legacySchema rest with
        | .error err => .error err
        | .ok tail => .ok ((e.type ++ " " ++ jsToStr e.name) :: tail)
      else .error "Expect argument to be non-empty array"

/-- Model of `typedSignatureHashBuffer(typedData)`.  `solSHA3` abstracts the
external `ethAbi.soliditySHA3`.  The input is a list, so the
`typeof typedData !== "object"` guard cannot fire; the `!typedData.length`
guard rejects the empty list, and the schema pass rejects any entry with
a falsy `name`, both with the same error. -/
def typedSignatureHashBuffer (solSHA3 : List String → List JValue → List Nat)
    (typedData : List LegacyEntry) : Except String (List Nat) :=
  if typedData.length = 0 then .error "Expect argument to be non-empty array"
  else
    let data := typedData.map (fun e =>
      if e.type = "bytes" then JValue.buf (toBufferJS e.value) else e.value)
    let types := typedData.map (fun e => e.type)
    match legacySchema typedData with
    | .error err => .error err
    | .ok schema =>
      .ok (solSHA3 ["bytes32", "bytes32"]
        [ .buf (solSHA3 (List.replicate typedData.length "string") (schema.map JValue.str)),
          .buf (solSHA3 types data) ])

/-! ## Signing entry points

`personalSign`, `signTypedDataLegacy` and `signTypedData` are module-level
arrow functions; the `this` they close over is the module-scope `this`,
which is `undefined` both as an ES module and in the CommonJS output of
the app's transpiler.  Each of them evaluates `this.concatSig(...)` after
hashing and signing. -/

/-- The module-scope `this` captured by the arrow functions. -/
def moduleThis : JValue := .undefined

/-- Model of `personalSign(privateKey, msgParams)` (the relevant `msgParams.data`
is passed directly).  `hashPersonalMessage` and `ecsign` abstract the
external primitives.  The success branch of the `this.concatSig` property
read is unreachable, since `moduleThis` is `undefined`. -/
def personalSign (hashPersonalMessage : List Nat → List Nat)
    (ecsign : List Nat → List Nat → SigParams)
    (privateKey : List Nat) (msgData : JValue) : Except String String :=
  let message := toBufferJS msgData
  let msgHash := hashPersonalMessage message
  let sig := ecsign msgHash privateKey
  match getProp moduleThis "concatSig" with
  | .error e => .error e
  | .ok _ => .ok (String.mk (concatSig sig.v sig.r sig.s))

/-- Model of `signTypedDataLegacy(privateKey, msgParams)`; as `personalSign`, the
final serialization step reads `this.concatSig` on `undefined`. -/
def signTypedDataLegacy (solSHA3 : List String → List JValue → List Nat)
    (ecsign : List Nat → List Nat → SigParams)
    (privateKey : List Nat) (msgData : List LegacyEntry) : Except String String :=
  match typedSignatureHashBuffer solSHA3 msgData with
  | .error e => .error e
  | .ok msgHash =>
    let sig := ecsign msgHash privateKey
    match getProp moduleThis "concatSig" with
    | .error e => .error e
    | .ok _ => .ok (String.mk (concatSig sig.v sig.r sig.s))

/-- Model of `signTypedData(privateKey, msgParams)`; as `personalSign`, the final
serialization step reads `this.concatSig` on `undefined`. -/
def signTypedData (kec : List Nat → List Nat)
    (rawEnc : List String → List JValue → List Nat)
    (ecsign : List Nat → List Nat → SigParams)
    (privateKey : List Nat) (msgData : List (String × JValue)) :
    Except String String :=
  match sign kec rawEnc msgData with
  | .error e => .error e
  | .ok message =>
    let sig := ecsign message privateKey
    match getProp moduleThis "concatSig" with
    | .error e => .error e
    | .ok _ => .ok (String.mk (concatSig sig.v sig.r sig.s))

/-! ## TypeGraph lemmas -/

theorem join_cons (a : String) (l : List String) :
    String.join (a :: l) = a ++ String.join l := by
  simp [String.join_eq]
  rfl

theorem findDepsFields_mono (step : String → List String → List String)
    (hstep : ∀ t res, res <+: step t res) :
    ∀ (fs : List FieldDef) (res : List String), res <+: findDepsFields step fs res := by
  intro fs
  induction fs with
  | nil => intro res; exact List.prefix_refl _
  | cons f fs ihf =>
      intro res
      exact (hstep f.type res).trans (ihf _)

theorem findDepsFields_pres (step : String → List String → List String)
    (P : List String → Prop) (hstep : ∀ t res, P res → P (step t res)) :
    ∀ (fs : List FieldDef) (res : List String), P res → P (findDepsFields step fs res) := by
  intro fs
  induction fs with
  | nil => intro res h; exact h
  | cons f fs ihf =>
      intro res h
      exact ihf _ (hstep f.type res h)

theorem findTypeDeps_grows (types : Schema) :
    ∀ (fuel : Nat) (t : String) (res : List String),
      res <+: findTypeDeps types fuel t res := by
  intro fuel
  induction fuel with
  | zero => intro t res; exact List.prefix_refl _
  | succ fuel ih =>
      intro t res
      simp only [findTypeDeps]
      split
      · exact List.prefix_refl _
      · cases hl : lookupSchema types t with
        | none => exact List.prefix_refl _
        | some fields =>
            exact (List.prefix_append res [t]).trans
              (findDepsFields_mono _ (fun t' res' => ih t' res') fields _)

theorem findTypeDeps_nodup (types : Schema) :
    ∀ (fuel : Nat) (t : String) (res : List String),
      res.Nodup → (findTypeDeps types fuel t res).Nodup := by
  intro fuel
  induction fuel with
  | zero => intro t res h; exact h
  | succ fuel ih =>
      intro t res h
      simp only [findTypeDeps]
      split
      · exact h
      · rename_i hmem
        cases hl : lookupSchema types t with
        | none => exact h
        | some fields =>
            apply findDepsFields_pres _ List.Nodup (fun t' res' h' => ih t' res' h') fields
            rw [List.nodup_append]
            refine ⟨h, List.nodup_singleton t, ?_⟩
            intro a ha hat
            rw [List.mem_singleton] at hat
            subst hat
            exact hmem ha

theorem findTypeDeps_mem (types : Schema) :
    ∀ (fuel : Nat) (t : String) (res : List String) (x : String),
      x ∈ findTypeDeps types fuel t res →
        x ∈ res ∨ (lookupSchema types x).isSome := by
  intro fuel
  induction fuel with
  | zero => intro t res x hx; exact Or.inl hx
  | succ fuel ih =>
      intro t res x hx
      rw [findTypeDeps] at hx
      split at hx
      · exact Or.inl hx
      · rename_i hmem
        cases hl : lookupSchema types t with
        | none =>
            rw [hl] at hx
            exact Or.inl hx
        | some fields =>
            rw [hl] at hx
            have := findDepsFields_pres (findTypeDeps types fuel)
              (fun l => ∀ y ∈ l, y ∈ res ∨ (lookupSchema types y).isSome)
              (fun t' res' h' y hy => by
                rcases ih t' res' y hy with h1 | h1
                · exact h' y h1
                · exact Or.inr h1)
              fields (res ++ [t])
              (fun y hy => by
                rw [List.mem_append, List.mem_singleton] at hy
                rcases hy with hy | hy
                · exact Or.inl hy
                · subst hy
                  exact Or.inr (by rw [hl]; rfl))
            exact this x hx

theorem findTypeDependencies_mem_self (t : String) (types : Schema)
    (h : (lookupSchema types t).isSome) : t ∈ findTypeDependencies t types := by
  unfold findTypeDependencies
  simp only [findTypeDeps]
  rw [if_neg (List.not_mem_nil t)]
  cases hl : lookupSchema types t with
  | none => rw [hl] at h; simp at h
  | some fields =>
      have hpre := findDepsFields_mono (findTypeDeps types types.length)
        (fun t' res' => findTypeDeps_grows types types.length t' res') fields ([] ++ [t])
      exact hpre.subset (by simp)

theorem mem_insertSorted (x y : String) (l : List String) :
    y ∈ insertSorted x l ↔ y = x ∨ y ∈ l := by
  induction l with
  | nil => simp [insertSorted]
  | cons z zs ih =>
      unfold insertSorted
      split
      · simp
      · simp [ih]
        tauto

theorem mem_sortStrings (y : String) (l : List String) :
    y ∈ sortStrings l ↔ y ∈ l := by
  induction l with
  | nil => simp [sortStrings]
  | cons z zs ih =>
      show y ∈ insertSorted z (sortStrings zs) ↔ _
      rw [mem_insertSorted]
      simp [ih]

theorem encTypeFold_ok (S : Schema) :
    ∀ (l : List String) (acc : String),
      (∀ t ∈ l, (lookupSchema S t).isSome) →
      (l.foldlM (fun result t =>
        match lookupSchema S t with
        | none => Except.error ("No type definition specified: " ++ t)
        | some fields => Except.ok (result ++ typeFragment t fields)) acc
          : Except String String)
        = .ok (acc ++ String.join (l.map
            (fun t => typeFragment t ((lookupSchema S t).getD [])))) := by
  intro l
  induction l with
  | nil =>
      intro acc _
      simp [String.join]
      rfl
  | cons t ts ih =>
      intro acc h
      obtain ⟨fields, hf⟩ := Option.isSome_iff_exists.mp (h t (by simp))
      rw [List.foldlM_cons, hf]
      show (ts.foldlM _ (acc ++ typeFragment t fields) : Except String String) = _
      rw [ih (acc ++ typeFragment t fields) (fun u hu => h u (by simp [hu]))]
      rw [List.map_cons, join_cons, hf]
      simp [String.append_assoc]

/-! ## C2 and C3 -/

/-- C3 counterexample: for a root type with no schema entry the result
omits the root — `findTypeDependencies "Foo" {}` is empty. -/
theorem findTypeDependencies_claim_counterexample :
    ¬ ("Foo" ∈ findTypeDependencies "Foo" ([] : Schema)) := by
  decide

/-- C3 (amended): for every schema `S` and root `R`,
`findTypeDependencies R S` contains no duplicates, and it contains `R`
whenever `R` has an entry in `S` (a root without an entry is omitted,
leaving the empty list). -/
theorem findTypeDependencies_nodup_and_mem (R : String) (S : Schema) :
    (findTypeDependencies R S).Nodup ∧
      ((lookupSchema S R).isSome → R ∈ findTypeDependencies R S) :=
  ⟨findTypeDeps_nodup S _ R [] List.nodup_nil,
   fun h => findTypeDependencies_mem_self R S h⟩

/-- Witness for C3 (amended) on the one-struct schema `{A: []}`. -/
theorem findTypeDependencies_nodup_and_mem_witness :
    (findTypeDependencies "A" [("A", [])]).Nodup ∧
      "A" ∈ findTypeDependencies "A" [("A", [])] :=
  ⟨(findTypeDependencies_nodup_and_mem "A" [("A", [])]).1,
   (findTypeDependencies_nodup_and_mem "A" [("A", [])]).2 (by decide)⟩

/-- C2: `encodeType R S` concatenates, with no separator and over the
ordered list `R` followed by the other discovered dependencies sorted
ascending, the fragment `TypeName(type1 name1,...)` with fields in
declaration order; and it fails with the unknown-type error if any type
of that list has no schema entry (only the root can be missing, so the
error names the root). -/
theorem encodeType_spec (R : String) (S : Schema) :
    ((∀ t ∈ R :: sortStrings ((findTypeDependencies R S).filter
          (fun dep => dep ≠ R)), (lookupSchema S t).isSome) →
      encodeType R S = .ok (String.join
        ((R :: sortStrings ((findTypeDependencies R S).filter
            (fun dep => dep ≠ R))).map
          (fun t => typeFragment t ((lookupSchema S t).getD []))))) ∧
    ((∃ t ∈ R :: sortStrings ((findTypeDependencies R S).filter
          (fun dep => dep ≠ R)), lookupSchema S t = none) →
      encodeType R S = .error ("No type definition specified: " ++ R)) := by
  constructor
  · intro h
    unfold encodeType
    rw [encTypeFold_ok S _ "" h, String.empty_append]
  · rintro ⟨t, ht, hnone⟩
    have htR : t = R := by
      rcases List.mem_cons.mp ht with h | h
      · exact h
      · exfalso
        rw [mem_sortStrings, List.mem_filter] at h
        rcases findTypeDeps_mem S _ R [] t h.1 with h1 | h1
        · simp at h1
        · rw [hnone] at h1
          simp at h1
    subst htR
    unfold encodeType
    rw [List.foldlM_cons, hnone]
    rfl

/-- Witness for C2 on the schema `{A: [{name: b, type: B}], B: []}`. -/
theorem encodeType_spec_witness :
    encodeType "A" [("A", [⟨"b", "B"⟩]), ("B", [])] = .ok "A(B b)B()" := by
  rw [(encodeType_spec "A" [("A", [⟨"b", "B"⟩]), ("B", [])]).1 (by decide)]
  rfl

/-! ## StructEncoder lemmas, C5 and C6 -/

/-- The `encodedTypes` entry the `encodeData` loop pushes for a present
field, read off its branch structure. -/
def slotTypeOf (S : Schema) (f : FieldDef) : String :=
  if f.type = "string" ∨ f.type = "bytes" then "bytes32"
  else if (lookupSchema S f.type).isSome then "bytes32"
  else f.type

theorem encodeFieldsWith_shape (kec : List Nat → List Nat)
    (rawEnc : List String → List JValue → List Nat) (S : Schema)
    (recur : String → JValue → Except String (List (String × JValue))) :
    ∀ (fs : List FieldDef) (d : JValue) (l : List (String × JValue)),
      encodeFieldsWith kec rawEnc S recur fs d = .ok l →
      List.Forall₂ (fun f (p : String × JValue) => p.1 = slotTypeOf S f)
        (fs.filter (fun f => !(isUndef (getPropPure d f.name)))) l := by
  intro fs
  induction fs with
  | nil =>
      intro d l h
      simp only [encodeFieldsWith] at h
      injection h with h
      subst h
      simp
  | cons f fs ih =>
      intro d l h
      rw [encodeFieldsWith] at h
      split at h
      · simp at h
      · rename_i value hv
        have hp : getPropPure d f.name = value := getPropPure_of_getProp hv
        split at h
        · rename_i hu
          rw [List.filter_cons_of_neg (by simp [hp, hu])]
          exact ih d l h
        · rename_i hu
          have hu' : isUndef value = false := by
            revert hu
            cases isUndef value <;> simp
          rw [List.filter_cons_of_pos (by simp [hp, hu'])]
          split at h
          · rename_i hstr
            split at h
            · simp at h
            · rename_i rest hrest
              injection h with h
              subst h
              refine List.Forall₂.cons ?_ (ih d rest hrest)
              show "bytes32" = slotTypeOf S f
              unfold slotTypeOf
              rw [if_pos hstr]
          · rename_i hstr
            split at h
            · rename_i hsome
              split at h
              · simp at h
              · rename_i sub hsub
                split at h
                · simp at h
                · rename_i rest hrest
                  injection h with h
                  subst h
                  refine List.Forall₂.cons ?_ (ih d rest hrest)
                  show "bytes32" = slotTypeOf S f
                  unfold slotTypeOf
                  rw [if_neg hstr, if_pos hsome]
            · rename_i hsome
              split at h
              · simp at h
              · split at h
                · simp at h
                · rename_i rest hrest
                  injection h with h
                  subst h
                  refine List.Forall₂.cons ?_ (ih d rest hrest)
                  show f.type = slotTypeOf S f
                  unfold slotTypeOf
                  rw [if_neg hstr, if_neg hsome]

/-- C5: a successful `encodeData` slot list starts with the 32-byte
`hashType` slot, followed by exactly one slot per field of the struct
whose value is present in the instance, in declaration order — a field
missing from the instance contributes no slot at all (in particular no
zero-filled one), and each emitted slot carries the encoded type its
branch dictates. -/
theorem encodeData_shape (kec : List Nat → List Nat)
    (rawEnc : List String → List JValue → List Nat) (S : Schema)
    (fuel : Nat) (T : String) (d : JValue) (l : List (String × JValue))
    (h : encodeDataPairs kec rawEnc S fuel T d = .ok l) :
    ∃ ht tail, hashType kec T S = .ok ht ∧
      l = ("bytes32", JValue.buf ht) :: tail ∧
      List.Forall₂ (fun f (p : String × JValue) => p.1 = slotTypeOf S f)
        (((lookupSchema S T).getD []).filter
          (fun f => !(isUndef (getPropPure d f.name)))) tail := by
  cases fuel with
  | zero => simp [encodeDataPairs] at h
  | succ fuel =>
      rw [encodeDataPairs] at h
      split at h
      · simp at h
      · rename_i ht hht
        split at h
        · simp at h
        · rename_i fields hl
          split at h
          · simp at h
          · rename_i rest hrest
            injection h with h
            subst h
            exact ⟨ht, rest, hht, rfl, by
              rw [hl]
              simpa using encodeFieldsWith_shape kec rawEnc S
                (encodeDataPairs kec rawEnc S fuel) fields d rest hrest⟩

/-- A concrete stand-in for the Keccak-256 primitive, used by witnesses. -/
def kec0 : List Nat → List Nat := fun bs => 0 :: bs

/-- A concrete stand-in for `ethAbi.rawEncode`, used by witnesses. -/
def rawEnc0 : List String → List JValue → List Nat := fun _ _ => []

/-- Witness for C5: struct `T {a: uint256, m: string}` with instance
`{a: 5}` — the missing `m` contributes no slot. -/
theorem encodeData_shape_witness :
    ∃ ht tail,
      hashType kec0 "T" [("T", [⟨"a", "uint256"⟩, ⟨"m", "string"⟩])] = .ok ht ∧
      [("bytes32", JValue.buf (0 :: strBytes "T(uint256 a,string m)")),
        ("uint256", JValue.num 5)] = ("bytes32", JValue.buf ht) :: tail ∧
      List.Forall₂ (fun f (p : String × JValue) =>
          p.1 = slotTypeOf [("T", [⟨"a", "uint256"⟩, ⟨"m", "string"⟩])] f)
        (((lookupSchema [("T", [⟨"a", "uint256"⟩, ⟨"m", "string"⟩])] "T").getD []).filter
          (fun f => !(isUndef (getPropPure (JValue.obj [("a", JValue.num 5)]) f.name))))
        tail :=
  encodeData_shape kec0 rawEnc0 [("T", [⟨"a", "uint256"⟩, ⟨"m", "string"⟩])] 1 "T"
    (JValue.obj [("a", JValue.num 5)])
    [("bytes32", JValue.buf (0 :: strBytes "T(uint256 a,string m)")),
      ("uint256", JValue.num 5)] rfl

theorem lastIndexOfRB_getLast :
    ∀ (l : List Char), l.getLast? = some ']' → lastIndexOfRB l = (l.length : Int) - 1 := by
  intro l
  induction l with
  | nil => intro h; simp at h
  | cons c rest ih =>
      intro h
      cases rest with
      | nil =>
          have hc : c = ']' := by simpa using h
          subst hc
          decide
      | cons c2 rest2 =>
          have h2 : (c2 :: rest2).getLast? = some ']' := by
            rwa [List.getLast?_cons_cons] at h
          have hsub := ih h2
          rw [lastIndexOfRB]
          rw [hsub]
          rw [if_pos (by simp)]
          simp

theorem isArrayType_of_getLast {s : String} (h : s.data.getLast? = some ']') :
    isArrayType s = true := by
  unfold isArrayType
  rw [lastIndexOfRB_getLast s.data h]
  simp

/-- Reaching an array-typed present field (neither `string`/`bytes` nor a
struct of the schema) makes the field loop throw the arrays error at
once, whatever follows. -/
theorem encodeFieldsWith_array_head (kec : List Nat → List Nat)
    (rawEnc : List String → List JValue → List Nat) (S : Schema)
    (f : FieldDef) (d v : JValue)
    (hget : getProp d f.name = .ok v) (hundef : isUndef v = false)
    (hstr : f.type ≠ "string") (hbytes : f.type ≠ "bytes")
    (hschema : lookupSchema S f.type = none)
    (harr : f.type.data.getLast? = some ']') :
    ∀ (recur : String → JValue → Except String (List (String × JValue)))
      (rest : List FieldDef),
      encodeFieldsWith kec rawEnc S recur (f :: rest) d
        = .error "Arrays currently unimplemented in encodeData" := by
  intro recur rest
  rw [encodeFieldsWith]
  split
  · rename_i e he
    rw [hget] at he
    simp at he
  · rename_i value hval
    rw [hget] at hval
    injection hval with hval
    subst hval
    rw [if_neg (by simp [hundef]), if_neg (by simp [hstr, hbytes]),
      if_neg (by simp [hschema]), if_pos (isArrayType_of_getLast harr)]

/-- A field list containing such an array field can never encode
successfully. -/
theorem encodeFieldsWith_mem_array_fail (kec : List Nat → List Nat)
    (rawEnc : List String → List JValue → List Nat) (S : Schema)
    (f : FieldDef) (d v : JValue)
    (hget : getProp d f.name = .ok v) (hundef : isUndef v = false)
    (hstr : f.type ≠ "string") (hbytes : f.type ≠ "bytes")
    (hschema : lookupSchema S f.type = none)
    (harr : f.type.data.getLast? = some ']') :
    ∀ (recur : String → JValue → Except String (List (String × JValue)))
      (fs : List FieldDef), f ∈ fs →
      ∀ l, encodeFieldsWith kec rawEnc S recur fs d ≠ .ok l := by
  intro recur fs
  induction fs with
  | nil => intro hmem; simp at hmem
  | cons g gs ih =>
      intro hmem l hok
      rcases List.mem_cons.mp hmem with hfg | hfg
      · subst hfg
        rw [encodeFieldsWith_array_head kec rawEnc S f d v hget hundef hstr hbytes
          hschema harr recur gs] at hok
        simp at hok
      · rw [encodeFieldsWith] at hok
        split at hok
        · simp at hok
        · split at hok
          · exact ih hfg l hok
          · split at hok
            · split at hok
              · simp at hok
              · rename_i rest hrest
                exact ih hfg rest hrest
            · split at hok
              · split at hok
                · simp at hok
                · split at hok
                  · simp at hok
                  · rename_i rest hrest
                    exact ih hfg rest hrest
              · split at hok
                · simp at hok
                · split at hok
                  · simp at hok
                  · rename_i rest hrest
                    exact ih hfg rest hrest

/-- C6: a present field whose declared type ends in `]` and is neither
`string`/`bytes` nor a struct defined in the schema makes the field loop
fail with the arrays-unsupported error the moment it is reached, and
`encodeData` on any struct declaring such a field never returns an
encoding. -/
theorem encodeData_array_unsupported (kec : List Nat → List Nat)
    (rawEnc : List String → List JValue → List Nat) (S : Schema)
    (f : FieldDef) (d v : JValue)
    (hget : getProp d f.name = .ok v) (hundef : isUndef v = false)
    (hstr : f.type ≠ "string") (hbytes : f.type ≠ "bytes")
    (hschema : lookupSchema S f.type = none)
    (harr : f.type.data.getLast? = some ']') :
    (∀ (recur : String → JValue → Except String (List (String × JValue)))
        (rest : List FieldDef),
      encodeFieldsWith kec rawEnc S recur (f :: rest) d
        = .error "Arrays currently unimplemented in encodeData") ∧
    (∀ (fuel : Nat) (T : String) (l : List (String × JValue)),
        f ∈ (lookupSchema S T).getD [] →
        encodeDataPairs kec rawEnc S fuel T d ≠ .ok l) := by
  constructor
  · exact encodeFieldsWith_array_head kec rawEnc S f d v hget hundef hstr hbytes
      hschema harr
  · intro fuel T l hmem hok
    cases fuel with
    | zero => simp [encodeDataPairs] at hok
    | succ fuel =>
        rw [encodeDataPairs] at hok
        split at hok
        · simp at hok
        · split at hok
          · simp at hok
          · rename_i fields hl
            split at hok
            · simp at hok
            · rename_i rest hrest
              rw [hl] at hmem
              exact encodeFieldsWith_mem_array_fail kec rawEnc S f d v hget hundef
                hstr hbytes hschema harr _ fields (by simpa using hmem) rest hrest

/-- Witness for C6 on `T {xs: uint256[]}` with instance `{xs: 1}`. -/
theorem encodeData_array_unsupported_witness :
    encodeFieldsWith kec0 rawEnc0 [("T", [⟨"xs", "uint256[]"⟩])]
        (fun _ _ => .ok []) [⟨"xs", "uint256[]"⟩] (JValue.obj [("xs", JValue.num 1)])
      = .error "Arrays currently unimplemented in encodeData" ∧
    encodeDataPairs kec0 rawEnc0 [("T", [⟨"xs", "uint256[]"⟩])] 1 "T"
        (JValue.obj [("xs", JValue.num 1)]) ≠ .ok [] :=
  ⟨(encodeData_array_unsupported kec0 rawEnc0 [("T", [⟨"xs", "uint256[]"⟩])]
      ⟨"xs", "uint256[]"⟩ (JValue.obj [("xs", JValue.num 1)]) (JValue.num 1)
      rfl rfl (by decide) (by decide) rfl (by decide)).1 (fun _ _ => .ok []) [],
   (encodeData_array_unsupported kec0 rawEnc0 [("T", [⟨"xs", "uint256[]"⟩])]
      ⟨"xs", "uint256[]"⟩ (JValue.obj [("xs", JValue.num 1)]) (JValue.num 1)
      rfl rfl (by decide) (by decide) rfl (by decide)).2 1 "T" [] (by decide)⟩

/-! ## Eip712Signer lemmas, C1 and C10 -/

theorem mem_sanitizeData_key {td : List (String × JValue)} {kv : String × JValue}
    (h : kv ∈ sanitizeData td) :
    kv.1 ∈ typedMessageSchemaKeys ∧ truthy (jsLookup td kv.1) = true ∧
      kv.2 = jsLookup td kv.1 := by
  unfold sanitizeData at h
  rw [List.mem_filterMap] at h
  obtain ⟨key, hkey, hf⟩ := h
  by_cases ht : truthy (jsLookup td key)
  · rw [if_pos ht] at hf
    injection hf with hf
    subst hf
    exact ⟨hkey, ht, rfl⟩
  · rw [if_neg ht] at hf
    simp at hf

/-- C1: `sign` first restricts its input to the four recognized top-level
keys — every key of the sanitized object is one of `types`,
`primaryType`, `domain`, `message`, everything else is dropped — and,
whenever the two `hashStruct` calls on the sanitized parts succeed, it
returns the Keccak-256 hash of `0x19 0x01 ‖ hashStruct("EIP712Domain",
domain, types) ‖ hashStruct(primaryType, message, types)`. -/
theorem sign_spec (kec : List Nat → List Nat)
    (rawEnc : List String → List JValue → List Nat)
    (td : List (String × JValue)) :
    (∀ kv ∈ sanitizeData td, kv.1 ∈ typedMessageSchemaKeys) ∧
    (∀ dh mh,
      hashStruct kec rawEnc "EIP712Domain" (jsLookup (sanitizeData td) "domain")
        (typesOf (sanitizeData td)) = .ok dh →
      hashStruct kec rawEnc (jsToStr (jsLookup (sanitizeData td) "primaryType"))
        (jsLookup (sanitizeData td) "message") (typesOf (sanitizeData td)) = .ok mh →
      sign kec rawEnc td = .ok (kec ([0x19, 0x01] ++ dh ++ mh))) := by
  constructor
  · intro kv hkv
    exact (mem_sanitizeData_key hkv).1
  · intro dh mh h1 h2
    simp only [sign]
    rw [h1, h2]
    rfl

/-- Witness typed message for C1: a well-formed message plus an extra
top-level key. -/
def tdC1 : List (String × JValue) :=
  [("types", .schemaV [("EIP712Domain", []), ("Msg", [])]),
   ("primaryType", .str "Msg"), ("domain", .obj []), ("message", .obj []),
   ("extra", .num 7)]

/-- Witness for C1. -/
theorem sign_spec_witness :
    sign kec0 rawEnc0 tdC1 = .ok (kec0 ([0x19, 0x01] ++ [0] ++ [0])) :=
  (sign_spec kec0 rawEnc0 tdC1).2 [0] [0] rfl rfl

/-- Removal of a top-level key (`delete data[k]`, for stating C10). -/
def removeKey : List (String × JValue) → String → List (String × JValue)
  | [], _ => []
  | kv :: rest, k => if kv.1 = k then removeKey rest k else kv :: removeKey rest k

/-- A typed message with the key `k` bound to `v` (for stating C10). -/
def setKey (td : List (String × JValue)) (k : String) (v : JValue) :
    List (String × JValue) :=
  (k, v) :: removeKey td k

theorem jsLookup_removeKey (td : List (String × JValue)) (k key : String) :
    jsLookup (removeKey td k) key
      = if k = key then .undefined else jsLookup td key := by
  induction td with
  | nil => simp [removeKey, jsLookup]
  | cons kv rest ih =>
      unfold removeKey
      by_cases h1 : kv.1 = k
      · by_cases h2 : k = key
        · subst h2
          simp [jsLookup, h1, ih]
        · simp [jsLookup, h1, h2, ih]
      · by_cases h2 : k = key
        · subst h2
          simp [jsLookup, h1, ih]
        · simp [jsLookup, h1, h2, ih]

theorem jsLookup_setKey (td : List (String × JValue)) (k : String) (v : JValue)
    (key : String) :
    jsLookup (setKey td k v) key = if k = key then v else jsLookup td key := by
  unfold setKey
  by_cases h : k = key
  · simp [jsLookup, h]
  · simp [jsLookup, h, jsLookup_removeKey]

theorem sanitizeData_congr (d1 d2 : List (String × JValue))
    (h : ∀ k ∈ typedMessageSchemaKeys,
      (truthy (jsLookup d1 k) = false ∧ truthy (jsLookup d2 k) = false) ∨
        jsLookup d1 k = jsLookup d2 k) :
    sanitizeData d1 = sanitizeData d2 := by
  unfold sanitizeData
  apply List.filterMap_congr
  intro k hk
  rcases h k hk with ⟨h1, h2⟩ | he
  · simp [h1, h2]
  · rw [he]

theorem sign_congr (kec : List Nat → List Nat)
    (rawEnc : List String → List JValue → List Nat)
    {d1 d2 : List (String × JValue)} (h : sanitizeData d1 = sanitizeData d2) :
    sign kec rawEnc d1 = sign kec rawEnc d2 := by
  unfold sign
  rw [h]

/-- C10: a recognized top-level key bound to a falsy value (empty-string
`primaryType`, `null` domain, …) is dropped by `sanitizeData` exactly as
if the key were absent: the sanitized object has no entry for it, and
`sign` behaves as on the input with the key removed (the hash proceeds
with the key `undefined`, not with the supplied falsy value). -/
theorem sanitizeData_drops_falsy (kec : List Nat → List Nat)
    (rawEnc : List String → List JValue → List Nat)
    (td : List (String × JValue)) (k : String) (v : JValue)
    (hk : k ∈ typedMessageSchemaKeys) (hv : truthy v = false) :
    sanitizeData (setKey td k v) = sanitizeData (removeKey td k) ∧
    (∀ kv ∈ sanitizeData (setKey td k v), kv.1 ≠ k) ∧
    sign kec rawEnc (setKey td k v) = sign kec rawEnc (removeKey td k) := by
  have hsan : sanitizeData (setKey td k v) = sanitizeData (removeKey td k) := by
    apply sanitizeData_congr
    intro key hkey
    by_cases hkk : k = key
    · left
      subst hkk
      rw [jsLookup_setKey, jsLookup_removeKey]
      constructor
      · rw [if_pos rfl]
        exact hv
      · rw [if_pos rfl]
        rfl
    · right
      rw [jsLookup_setKey, jsLookup_removeKey, if_neg hkk, if_neg hkk]
  refine ⟨hsan, ?_, sign_congr kec rawEnc hsan⟩
  intro kv hkv hk1
  obtain ⟨-, htr, -⟩ := mem_sanitizeData_key hkv
  rw [hk1, jsLookup_setKey] at htr
  simp [hv] at htr

/-- Witness for C10: a falsy `primaryType` (the empty string). -/
theorem sanitizeData_drops_falsy_witness :
    sanitizeData (setKey [("domain", JValue.num 3)] "primaryType" (JValue.str ""))
      = sanitizeData (removeKey [("domain", JValue.num 3)] "primaryType") ∧
    sign kec0 rawEnc0 (setKey [("domain", JValue.num 3)] "primaryType" (JValue.str ""))
      = sign kec0 rawEnc0 (removeKey [("domain", JValue.num 3)] "primaryType") :=
  ⟨(sanitizeData_drops_falsy kec0 rawEnc0 [("domain", JValue.num 3)] "primaryType"
      (JValue.str "") (by decide) rfl).1,
   (sanitizeData_drops_falsy kec0 rawEnc0 [("domain", JValue.num 3)] "primaryType"
      (JValue.str "") (by decide) rfl).2.2⟩

/-! ## C7: the legacy typed-data hash -/

theorem legacySchema_ok :
    ∀ (l : List LegacyEntry), (∀ e ∈ l, truthy e.name = true) →
      legacySchema l = .ok (l.map (fun e => e.type ++ " " ++ jsToStr e.name)) := by
  intro l
  induction l with
  | nil => intro _; rfl
  | cons e es ih =>
      intro h
      unfold legacySchema
      rw [if_pos (h e (by simp)), ih (fun x hx => h x (by simp [hx]))]
      rfl

theorem legacySchema_err :
    ∀ (l : List LegacyEntry), (∃ e ∈ l, truthy e.name = false) →
      legacySchema l = .error "Expect argument to be non-empty array" := by
  intro l
  induction l with
  | nil => rintro ⟨e, he, -⟩; simp at he
  | cons a as ih =>
      rintro ⟨e, he, hf⟩
      unfold legacySchema
      by_cases ha : truthy a.name
      · rw [if_pos ha]
        have hes : ∃ e ∈ as, truthy e.name = false := by
          rcases List.mem_cons.mp he with rfl | hmem
          · rw [ha] at hf
            cases hf
          · exact ⟨e, hmem, hf⟩
        rw [ih hes]
      · rw [if_neg ha]

/-- C7: `typedSignatureHashBuffer` fails with the invalid-input error on
the empty list, and when any entry has a falsy `name`; on a non-empty
list of named entries it returns `soliditySHA3("bytes32","bytes32")` of
the pair (hash of the `"type name"` schema strings, hash of the
tight-packed types and values). -/
theorem typedSignatureHashBuffer_spec
    (solSHA3 : List String → List JValue → List Nat) :
    (typedSignatureHashBuffer solSHA3 []
        = .error "Expect argument to be non-empty array") ∧
    (∀ (l : List LegacyEntry) (e : LegacyEntry), e ∈ l → truthy e.name = false →
      typedSignatureHashBuffer solSHA3 l
        = .error "Expect argument to be non-empty array") ∧
    (∀ (l : List LegacyEntry), l ≠ [] → (∀ e ∈ l, truthy e.name = true) →
      typedSignatureHashBuffer solSHA3 l = .ok (solSHA3 ["bytes32", "bytes32"]
        [ .buf (solSHA3 (List.replicate l.length "string")
            ((l.map (fun e => e.type ++ " " ++ jsToStr e.name)).map JValue.str)),
          .buf (solSHA3 (l.map (fun e => e.type)) (l.map (fun e =>
            if e.type = "bytes" then JValue.buf (toBufferJS e.value)
            else e.value)))])) := by
  refine ⟨rfl, ?_, ?_⟩
  · intro l e he hf
    have hlen : ¬ l.length = 0 := by
      cases l
      · simp at he
      · simp
    simp only [typedSignatureHashBuffer]
    rw [if_neg hlen, legacySchema_err l ⟨e, he, hf⟩]
  · intro l hne h
    have hlen : ¬ l.length = 0 := by
      cases l
      · exact absurd rfl hne
      · simp
    simp only [typedSignatureHashBuffer]
    rw [if_neg hlen, legacySchema_ok l h]

/-- A concrete stand-in for `ethAbi.soliditySHA3`, used by witnesses. -/
def solSHA30 : List String → List JValue → List Nat := fun _ _ => [7]

/-- Witness for C7: the empty list, an unnamed entry, and a named one. -/
theorem typedSignatureHashBuffer_spec_witness :
    typedSignatureHashBuffer solSHA30 []
        = .error "Expect argument to be non-empty array" ∧
    typedSignatureHashBuffer solSHA30 [⟨.undefined, "uint", .num 1⟩]
        = .error "Expect argument to be non-empty array" ∧
    typedSignatureHashBuffer solSHA30 [⟨.str "n", "uint", .num 1⟩]
        = .ok (solSHA30 ["bytes32", "bytes32"]
            [ .buf (solSHA30 ["string"] [.str "uint n"]),
              .buf (solSHA30 ["uint"] [.num 1]) ]) :=
  ⟨(typedSignatureHashBuffer_spec solSHA30).1,
   (typedSignatureHashBuffer_spec solSHA30).2.1 [⟨.undefined, "uint", .num 1⟩]
     ⟨.undefined, "uint", .num 1⟩ (by simp) rfl,
   (typedSignatureHashBuffer_spec solSHA30).2.2 [⟨.str "n", "uint", .num 1⟩]
     (by simp) (by rintro e he; simp at he; rw [he]; rfl)⟩

/-! ## C8: `normalize` -/

/-- C8 counterexample: `false` is neither a string nor a number, yet
`normalize` returns `undefined` without surfacing any failure (the
`if (!input) return;` guard swallows every falsy input). -/
theorem normalize_claim_counterexample :
    normalize (JValue.bool false) = .ok .undefined := rfl

theorem hexPairsToBytes_mem_lt :
    ∀ (cs : List Char) (b : Nat), b ∈ hexPairsToBytes cs → b < 256
  | [], b, hb => by simp [hexPairsToBytes] at hb
  | [c], b, hb => by simp [hexPairsToBytes] at hb
  | c1 :: c2 :: rest, b, hb => by
      simp only [hexPairsToBytes, List.mem_cons] at hb
      rcases hb with hb | hb
      · have h1 := hexCharVal_lt c1
        have h2 := hexCharVal_lt c2
        omega
      · exact hexPairsToBytes_mem_lt rest b hb

theorem toLower_hexDigitChar {m : Nat} (hm : m < 16) :
    Char.toLower (hexDigitChar m) = hexDigitChar m := by
  interval_cases m <;> decide

/-- C8 (amended): `normalize` returns `undefined` silently for every
falsy input (`0`, `""`, `false`, `null`, `undefined`); for truthy inputs
that are neither a string nor a number it fails with the type-mismatch
error; a truthy string comes back lower-cased and `0x`-prefixed, and a
truthy number comes back as a `0x`-prefixed lower-case hex string. -/
theorem normalize_spec :
    (∀ v : JValue, truthy v = false → normalize v = .ok .undefined) ∧
    (∀ v : JValue, truthy v = true →
      jsTypeofStr v ≠ "string" → jsTypeofStr v ≠ "number" →
      ∃ msg, normalize v = .error msg) ∧
    (∀ s : String, truthy (.str s) = true →
      normalize (.str s) = .ok (.str (String.mk (add0x (s.data.map Char.toLower))))) ∧
    (∀ n : Nat, n ≠ 0 →
      ∃ t : List Char, normalize (.num n) = .ok (.str (String.mk ('0' :: 'x' :: t))) ∧
        ∀ c ∈ t, ∃ m, m < 16 ∧ c = hexDigitChar m) := by
  refine ⟨?_, ?_, ?_, ?_⟩
  · intro v hv
    unfold normalize
    rw [hv]
    rfl
  · intro v hv hs hn
    cases v with
    | undefined => simp [truthy] at hv
    | null => simp [truthy] at hv
    | bool b =>
        cases b with
        | false => simp [truthy] at hv
        | true => exact ⟨_, rfl⟩
    | num n => exact absurd rfl hn
    | str s => exact absurd rfl hs
    | buf bs => exact ⟨_, rfl⟩
    | obj props => exact ⟨_, rfl⟩
    | schemaV sc => exact ⟨_, rfl⟩
  · intro s hv
    unfold normalize
    rw [hv]
    rfl
  · intro n hn
    have htr : truthy (.num n) = true := by simp [truthy, hn]
    refine ⟨(bytesToHexChars (hexPairsToBytes (padToEven (natToHexMin n)))).map
      Char.toLower, ?_, ?_⟩
    · unfold normalize
      rw [htr]
      rfl
    · intro c hc
      rw [List.mem_map] at hc
      obtain ⟨c0, hc0, hlc⟩ := hc
      obtain ⟨m, hm, hcm⟩ :=
        mem_bytesToHexChars (fun b hb => hexPairsToBytes_mem_lt _ b hb) hc0
      refine ⟨m, hm, ?_⟩
      rw [← hlc, hcm, toLower_hexDigitChar hm]

/-- Witness for C8 (amended) at `0`, a buffer, `"Ab"` and `26`. -/
theorem normalize_spec_witness :
    normalize (JValue.num 0) = .ok .undefined ∧
    (∃ msg, normalize (JValue.buf [1]) = .error msg) ∧
    normalize (.str "Ab")
        = .ok (.str (String.mk (add0x ("Ab".data.map Char.toLower)))) ∧
    (∃ t : List Char, normalize (.num 26) = .ok (.str (String.mk ('0' :: 'x' :: t))) ∧
      ∀ c ∈ t, ∃ m, m < 16 ∧ c = hexDigitChar m) :=
  ⟨normalize_spec.1 (JValue.num 0) rfl,
   normalize_spec.2.1 (JValue.buf [1]) rfl (by decide) (by decide),
   normalize_spec.2.2.1 "Ab" (by decide),
   normalize_spec.2.2.2 26 (by decide)⟩

/-! ## C9: the signing entry points never return -/

/-- C9: `personalSign`, `signTypedDataLegacy` and `signTypedData` are
module-level arrow functions whose `this` is `undefined`; each reads
`this.concatSig` after hashing and signing, so no call to any of the
three ever returns a serialized signature — every call ends in an
error (the `TypeError` from the property read, or an earlier hashing
failure). -/
theorem signing_entry_points_never_return
    (hashPersonalMessage : List Nat → List Nat)
    (ecsign : List Nat → List Nat → SigParams)
    (solSHA3 : List String → List JValue → List Nat)
    (kec : List Nat → List Nat) (rawEnc : List String → List JValue → List Nat)
    (privateKey : List Nat) (msgData : JValue)
    (legacyData : List LegacyEntry) (typedData : List (String × JValue)) :
    (∃ e, personalSign hashPersonalMessage ecsign privateKey msgData = .error e) ∧
    (∃ e, signTypedDataLegacy solSHA3 ecsign privateKey legacyData = .error e) ∧
    (∃ e, signTypedData kec rawEnc ecsign privateKey typedData = .error e) := by
  refine ⟨⟨"TypeError: Cannot read properties of undefined", rfl⟩, ?_, ?_⟩
  · cases h : typedSignatureHashBuffer solSHA3 legacyData with
    | error e =>
        exact ⟨e, by simp only [signTypedDataLegacy]; rw [h]⟩
    | ok v =>
        exact ⟨"TypeError: Cannot read properties of undefined",
          by simp only [signTypedDataLegacy]; rw [h]; rfl⟩
  · cases h : sign kec rawEnc typedData with
    | error e =>
        exact ⟨e, by simp only [signTypedData]; rw [h]⟩
    | ok v =>
        exact ⟨"TypeError: Cannot read properties of undefined",
          by simp only [signTypedData]; rw [h]; rfl⟩

end EthSigUtil
